import Mathlib

/-!
Verification of the FlashGraph / FlashMatrix sources (fg-graphyti).

The k-core vertex program, its queries and its command line are embedded from
src/apps/k-core/k_core.cpp and src/flash-graph/test-algs/test_algs.cpp.
The sparse-matrix layer (execution orders, multiply-order selection, page-aligned
I/O requests, transpose, index bounds checks) is embedded from
src/matrix/sparse_matrix.cpp, src/matrix/sparse_matrix.h and
src/matrix/sparse_matrix_format.cpp.

The bulk-synchronous engine loop (graph_engine.cpp), the vertex index accessors,
the page-rounding macros and the hilbert-curve helper are not part of the given
sources; where a claim depends on them they are modelled from the specification,
as marked in the doc comments below.
-/

/-! ## Directed graph model

A directed graph is a list of (source, destination) edges over vertex ids.
The vertex index of a directed graph exposes, per vertex, the in-edge count and
the out-edge count (spec section 2, Graph Index).
-/

/-- In-neighbors of vertex v: sources of the edges whose destination is v. -/
def inNeighbors (es : List (Nat × Nat)) (v : Nat) : List Nat :=
  (es.filter (fun e => e.2 == v)).map Prod.fst

/-- Out-neighbors of vertex v: destinations of the edges whose source is v. -/
def outNeighbors (es : List (Nat × Nat)) (v : Nat) : List Nat :=
  (es.filter (fun e => e.1 == v)).map Prod.snd

/-- get_num_in_edges of the directed vertex index. -/
def numInEdges (es : List (Nat × Nat)) (v : Nat) : Nat :=
  (inNeighbors es v).length

/-- get_num_out_edges of the directed vertex index. -/
def numOutEdges (es : List (Nat × Nat)) (v : Nat) : Nat :=
  (outNeighbors es v).length

/-- kcore_vertex constructor (k_core.cpp lines 46-51):
degree = index.get_num_in_edges(id) + index.get_num_out_edges(id). -/
def initDegree (es : List (Nat × Nat)) (v : Nat) : Nat :=
  numInEdges es v + numOutEdges es v

/-! ## k-core vertex state and callbacks (src/apps/k-core/k_core.cpp) -/

/-- Per-vertex state of kcore_vertex: the deleted flag and the mutable degree. -/
structure KcoreVertex where
  deleted : Bool
  degree : Nat
deriving DecidableEq

/-- kcore_vertex::run_on_message (k_core.cpp lines 114-119): a deleted vertex
ignores the message; otherwise the degree is decremented. -/
def run_on_message (v : KcoreVertex) : KcoreVertex :=
  if v.deleted then v else { v with degree := v.degree - 1 }

/-- Delivery of one deleted_message to recipient r: invoke run_on_message on
the recipient's state. Out-of-range recipients leave the state unchanged. -/
def deliverOne (st : List KcoreVertex) (r : Nat) : List KcoreVertex :=
  match st.get? r with
  | some v => st.set r (run_on_message v)
  | none => st

/-- One active vertex executing its level: kcore_vertex::run (k_core.cpp lines
65-72) gates on degree > CURRENT_K and on the deleted flag, then
kcore_vertex::run with the page vertex (lines 100-112) deletes the vertex when
its degree is below CURRENT_K and multicasts a deleted_message to its IN_EDGE
neighbors and then its OUT_EDGE neighbors. The accumulator carries the vertex
states and the messages emitted so far in this level. -/
def runActive (k : Nat) (es : List (Nat × Nat))
    (acc : List KcoreVertex × List Nat) (vid : Nat) :
    List KcoreVertex × List Nat :=
  match acc.1.get? vid with
  | none => acc
  | some v =>
    if v.degree > k then acc
    else if v.deleted then acc
    else if v.degree < k then
      (acc.1.set vid { v with deleted := true },
        acc.2 ++ inNeighbors es vid ++ outNeighbors es vid)
    else acc

/-- Modelled from the spec: one bulk-synchronous level of the engine
(graph_engine.cpp is not among the sources; spec section 4.1/4.2/5): all
messages sent in the previous level are delivered through run_on_message first,
then every active vertex runs once; the messages it emits are collected for the
next level. -/
def stepLevel (k : Nat) (es : List (Nat × Nat)) (st : List KcoreVertex)
    (msgs : List Nat) (active : List Nat) : List KcoreVertex × List Nat :=
  active.foldl (runActive k es) (msgs.foldl deliverOne st, [])

/-- Modelled from the spec: the level loop of the engine (spec section 4.1).
A vertex that received several messages is coalesced to a single execution, so
the next active set is the deduplicated list of message recipients; the loop
stops at quiescence (no pending messages and no active vertices). fuel bounds
the number of levels. -/
def peelLoop (k : Nat) (es : List (Nat × Nat)) :
    Nat → List KcoreVertex → List Nat → List Nat → List KcoreVertex
  | 0, st, _, _ => st
  | fuel + 1, st, msgs, active =>
    if msgs.isEmpty && active.isEmpty then st
    else
      let p := stepLevel k es st msgs active
      peelLoop k es fuel p.1 p.2 p.2.dedup

/-- Initial vertex states: every vertex undeleted with its index degree. -/
def kcoreInitState (n : Nat) (es : List (Nat × Nat)) : List KcoreVertex :=
  (List.range n).map (fun v => { deleted := false, degree := initDegree es v })

/-- activate_k_filter (k_core.cpp lines 274-284): the first level activates the
vertices whose index degree is below the current k. -/
def activateKFilter (k n : Nat) (es : List (Nat × Nat)) : List Nat :=
  (List.range n).filter (fun v => initDegree es v < k)

/-- One full k-core peel at threshold k on an n-vertex edge list, run until
quiescence or until fuel levels have elapsed. -/
def peel (fuel k n : Nat) (es : List (Nat × Nat)) : List KcoreVertex :=
  peelLoop k es fuel (kcoreInitState n es) [] (activateKFilter k n es)

/-! ## count_vertex_query (k_core.cpp lines 142-168) -/

/-- count_vertex_query::run: increments the counter iff the vertex is deleted. -/
def countRun (acc : Nat) (v : KcoreVertex) : Nat :=
  if v.deleted then acc + 1 else acc

/-- One worker clone of count_vertex_query folded over its partition. -/
def countFold (vs : List KcoreVertex) : Nat :=
  vs.foldl countRun 0

/-- Modelled from the spec: query_on_all (spec section 4.6) clones the query
per worker, runs each clone over its partition of the vertices and merges the
clones; count_vertex_query::merge adds the counters. -/
def queryOnAllCount (parts : List (List KcoreVertex)) : Nat :=
  (parts.map countFold).sum

/-- The number printed by one result line of the k-core main loop (k_core.cpp
lines 308-314): count_vertex_query applied to the final vertex states. -/
def kcoreReportLine (fuel k n : Nat) (es : List (Nat × Nat)) : Nat :=
  queryOnAllCount [peel fuel k n es]

/-- The literal 6-vertex graph E1 of the spec (section 8). -/
def E1 : List (Nat × Nat) :=
  [(0, 1), (1, 2), (2, 0), (2, 3), (3, 4), (4, 5), (5, 3)]

/-! ## k-core command lines -/

/-- Leading-digit scan of atol. -/
def atolDigits : List Char → Nat → Nat
  | [], acc => acc
  | c :: cs, acc =>
    if c.isDigit then atolDigits cs (acc * 10 + (c.toNat - 48)) else acc

/-- Model of atol on the nonnegative decimal strings the CLI receives:
the longest leading run of digits, 0 when there is none. -/
def atol (s : String) : Nat :=
  atolDigits s.data 0

/-- The positional arguments of the standalone k-core command. -/
structure KcoreCmdArgs where
  conf_file : String
  graph_file : String
  index_file : String
  kmin : Nat
  kmax_arg : Option Nat
deriving DecidableEq

/-- The argument handling of k_core.cpp main (lines 237-263): fewer than four
positional arguments print the usage and exit(-1) (modelled as none); otherwise
the run proceeds toward engine creation with kmin = atol(argv[3]) and, when a
fifth argument is present, kmax = atol(argv[4]). No validation of kmin is
performed. -/
def kcoreMainArgs (argv : List String) : Option KcoreCmdArgs :=
  if argv.length < 4 then none
  else some
    { conf_file := argv.getD 0 ""
      graph_file := argv.getD 1 ""
      index_file := argv.getD 2 ""
      kmin := atol (argv.getD 3 "")
      kmax_arg := if argv.length > 4 then some (atol (argv.getD 4 "")) else none }

/-- run_kcore of test_algs.cpp (lines 483-486): the kcore subcommand exits(-1)
exactly when the parsed k is below 2. -/
def runKcoreRejects (k : Nat) : Bool :=
  k < 2

/-! ## Theorems for the k-core claims -/

theorem countFold_acc (a : Nat) (vs : List KcoreVertex) :
    vs.foldl countRun a = a + vs.countP (fun v => v.deleted) := by
  induction vs generalizing a with
  | nil => simp
  | cons v vs ih =>
    simp only [List.foldl_cons, List.countP_cons, ih, countRun]
    by_cases h : v.deleted <;> simp [h] <;> omega

theorem countFold_eq_countP (vs : List KcoreVertex) :
    countFold vs = vs.countP (fun v => v.deleted) := by
  simpa [countFold] using countFold_acc 0 vs

/-- C1: the value printed in each k-core result line is the count made by
count_vertex_query, which counts the vertices whose deleted flag is set: the
reported number is the number of deleted vertices, over any worker partition,
and equals the count of deleted vertices in the final peel state. -/
theorem count_query_reports_deleted :
    (∀ parts : List (List KcoreVertex),
      queryOnAllCount parts = parts.flatten.countP (fun v => v.deleted)) ∧
    (∀ fuel k n es, kcoreReportLine fuel k n es
      = (peel fuel k n es).countP (fun v => v.deleted)) := by
  constructor
  · intro parts
    rw [queryOnAllCount, List.countP_flatten]
    congr 1
    exact List.map_congr_left (fun l _ => countFold_eq_countP l)
  · intro fuel k n es
    rw [kcoreReportLine, queryOnAllCount]
    simp [countFold_eq_countP]

/-- C1 counterexample: on E1 with k = 2 the peel deletes nothing, so six
vertices are still alive, yet the reported count is 0 = the number of deleted
vertices, not the number of alive ones. -/
theorem count_query_not_alive_count :
    kcoreReportLine 10 2 6 E1 = 0 ∧
    (peel 10 2 6 E1).countP (fun v => !v.deleted) = 6 ∧
    (0 : Nat) ≠ 6 := by
  refine ⟨by decide, by decide, by decide⟩

/-- C2: on the 6-vertex graph E1, the k-core peel at k = 3 ends with all six
vertices deleted: zero vertices survive and count_vertex_query reports 6. -/
theorem kcore_E1_k3_all_deleted :
    (peel 10 3 6 E1).countP (fun v => v.deleted) = 6 ∧
    (peel 10 3 6 E1).countP (fun v => !v.deleted) = 0 ∧
    queryOnAllCount [peel 10 3 6 E1] = 6 := by
  refine ⟨by decide, by decide, by decide⟩

/-- C6 counterexample: the standalone k-core command line accepts kmin = 1,
which is below 2, and proceeds toward engine creation instead of exiting. -/
theorem kcore_main_accepts_kmin_one :
    kcoreMainArgs ["conf", "graph", "index", "1"]
      = some { conf_file := "conf", graph_file := "graph",
               index_file := "index", kmin := 1, kmax_arg := none } ∧
    (1 : Nat) < 2 := by
  refine ⟨by decide, by decide⟩

/-- C6 amended: the test_algs k-core subcommand rejects kmin below 2 with a
nonzero exit before the engine runs, but the standalone k-core command only
checks the count of positional arguments and proceeds toward engine creation
for every kmin, taking kmin from the fourth argument. -/
theorem kcore_kmin_validation :
    (∀ k, runKcoreRejects k = true ↔ k < 2) ∧
    (∀ argv : List String, 4 ≤ argv.length →
      ∃ a, kcoreMainArgs argv = some a ∧ a.kmin = atol (argv.getD 3 "")) := by
  constructor
  · intro k
    simp [runKcoreRejects]
  · intro argv h
    rw [kcoreMainArgs, if_neg (by omega)]
    exact ⟨_, rfl, rfl⟩

/-- C6 amended witness at a concrete command line. -/
theorem kcore_kmin_validation_witness :
    runKcoreRejects 1 = true ∧
    (∃ a, kcoreMainArgs ["c", "g", "i", "7"] = some a ∧
      a.kmin = atol (["c", "g", "i", "7"].getD 3 "")) := by
  exact ⟨(kcore_kmin_validation.1 1).mpr (by decide),
    kcore_kmin_validation.2 ["c", "g", "i", "7"] (by decide)⟩

/-- C8 counterexample: a vertex with a self-loop has its loop counted twice in
the initial degree (once as in-edge, once as out-edge), not once. -/
theorem self_loop_degree_two :
    initDegree [(0, 0)] 0 = 2 ∧ initDegree [(0, 0)] 0 ≠ 1 := by
  refine ⟨by decide, by decide⟩

/-- C8 amended: a deleted k-core vertex is terminal: run_on_message leaves its
state unchanged, its run performs no state change and sends no message so the
deletion cascade never revisits it (in particular a self-loop vertex ignores
its own delete message); and its initial degree counted a self-loop twice. -/
theorem deleted_vertex_terminal :
    (∀ v : KcoreVertex, v.deleted = true → run_on_message v = v) ∧
    (∀ k es st out vid (v : KcoreVertex), st.get? vid = some v →
      v.deleted = true → runActive k es (st, out) vid = (st, out)) ∧
    initDegree [(0, 0)] 0 = 2 := by
  refine ⟨?_, ?_, by decide⟩
  · intro v h
    simp [run_on_message, h]
  · intro k es st out vid v hget hdel
    rw [runActive]
    simp only [hget]
    by_cases hdeg : v.degree > k
    · simp [hdeg]
    · simp [hdeg, hdel]

/-- C8 amended witness: a concrete deleted vertex with a pending message and an
active slot is left untouched. -/
theorem deleted_vertex_terminal_witness :
    run_on_message { deleted := true, degree := 5 } = { deleted := true, degree := 5 } ∧
    runActive 3 E1 ([{ deleted := true, degree := 1 }], []) 0
      = ([{ deleted := true, degree := 1 }], []) := by
  exact ⟨deleted_vertex_terminal.1 _ rfl,
    deleted_vertex_terminal.2.1 3 E1 [{ deleted := true, degree := 1 }] [] 0
      { deleted := true, degree := 1 } rfl rfl⟩

/-! ## Sparse matrix shapes and transpose (src/matrix/sparse_matrix.h and .cpp) -/

/-- The observable shape of a sparse_matrix: the row and column counts behind
get_num_rows and get_num_cols. -/
structure MatShape where
  nrows : Nat
  ncols : Nat
deriving DecidableEq

/-- sparse_matrix::transpose (sparse_matrix.h lines 425-429): swap the stored
row and column counts. -/
def matShapeTranspose (m : MatShape) : MatShape :=
  { nrows := m.ncols, ncols := m.nrows }

/-- fg_sparse_sym_matrix: the shape plus its row-block index. -/
structure FgSymMatrix where
  shape : MatShape
  blocks : List Int
deriving DecidableEq

/-- fg_sparse_sym_matrix::transpose (sparse_matrix.cpp lines 360-361): nothing
happens for a symmetric matrix. -/
def fgSymTranspose (m : FgSymMatrix) : FgSymMatrix :=
  m

/-- fg_sparse_asym_matrix: the shape, the transposed flag and the two
row-block indexes (out_blocks for the original matrix, in_blocks for its
transpose). -/
structure FgAsymMatrix where
  shape : MatShape
  transposed : Bool
  out_blocks : List Int
  in_blocks : List Int
deriving DecidableEq

/-- fg_sparse_asym_matrix::transpose (sparse_matrix.cpp lines 461-464): flip the
transposed flag and swap the row and column counts of the base class. -/
def fgAsymTranspose (m : FgAsymMatrix) : FgAsymMatrix :=
  { m with transposed := !m.transposed, shape := matShapeTranspose m.shape }

/-- block_sparse_matrix: the 2D-partitioned symmetric-storage matrix. -/
structure BlockMatrix where
  shape : MatShape
  offs : List Int
deriving DecidableEq

/-- block_sparse_matrix::transpose (sparse_matrix.cpp lines 587-588): nothing
happens. -/
def blockSymTranspose (m : BlockMatrix) : BlockMatrix :=
  m

/-- block_sparse_asym_matrix: the shape plus the stored matrix and its stored
transpose. -/
structure BlockAsymMatrix where
  shape : MatShape
  mat : BlockMatrix
  t_mat : BlockMatrix
deriving DecidableEq

/-- block_sparse_asym_matrix::transpose (sparse_matrix.cpp lines 664-669): swap
the stored matrix with its stored transpose and swap the row and column
counts. -/
def blockAsymTranspose (m : BlockAsymMatrix) : BlockAsymMatrix :=
  { shape := matShapeTranspose m.shape, mat := m.t_mat, t_mat := m.mat }

/-- C9: transpose is an involution on the observable shape of every
sparse_matrix variant: the symmetric variants' transpose is the identity, the
asymmetric variants swap the stored matrix with its stored transpose and swap
the row and column counts, and applying transpose twice restores get_num_rows
and get_num_cols everywhere. -/
theorem transpose_involution :
    (∀ s : MatShape, matShapeTranspose (matShapeTranspose s) = s) ∧
    (∀ m : FgSymMatrix, fgSymTranspose m = m) ∧
    (∀ m : BlockMatrix, blockSymTranspose m = m) ∧
    (∀ m : FgAsymMatrix,
      (fgAsymTranspose (fgAsymTranspose m)).shape.nrows = m.shape.nrows ∧
      (fgAsymTranspose (fgAsymTranspose m)).shape.ncols = m.shape.ncols ∧
      (fgAsymTranspose m).shape.nrows = m.shape.ncols ∧
      (fgAsymTranspose m).out_blocks = m.out_blocks) ∧
    (∀ m : BlockAsymMatrix,
      (blockAsymTranspose (blockAsymTranspose m)) = m ∧
      (blockAsymTranspose m).mat = m.t_mat ∧
      (blockAsymTranspose m).shape.nrows = m.shape.ncols) := by
  refine ⟨fun s => rfl, fun m => rfl, fun m => rfl, fun m => ⟨rfl, rfl, rfl, rfl⟩,
    fun m => ⟨rfl, rfl, rfl⟩⟩

/-! ## sparse_matrix_index bounds check (src/matrix/sparse_matrix_format.cpp) -/

/-- The in-memory sparse_matrix_index: the stored block-row offset array.
Modelled from the spec: sparse_matrix_format.h is not among the sources;
per sparse_matrix_index::create the array holds one offset per block row plus
one final offset, and get_num_entries returns the number of stored offsets. -/
structure SparseMatrixIdx where
  offs : List Int
deriving DecidableEq

/-- get_num_entries: the number of stored offsets. -/
def get_num_entries (m : SparseMatrixIdx) : Nat :=
  m.offs.length

/-- sparse_matrix_index::get_block_row_off (sparse_matrix_format.cpp lines
101-108): an index at or past the number of entries logs an error and returns
-1; otherwise the stored offset is returned. -/
def get_block_row_off (m : SparseMatrixIdx) (idx : Nat) : Int :=
  if idx ≥ get_num_entries m then -1
  else m.offs.getD idx (-1)

/-- C10: get_block_row_off never reads outside the stored offset array: every
index at or past the number of stored entries yields -1, and every in-range
index yields exactly the stored offset of that block row. -/
theorem get_block_row_off_in_bounds (m : SparseMatrixIdx) (idx : Nat) :
    (get_num_entries m ≤ idx → get_block_row_off m idx = -1) ∧
    (∀ h : idx < get_num_entries m,
      get_block_row_off m idx = m.offs.get ⟨idx, h⟩) := by
  constructor
  · intro h
    rw [get_block_row_off, if_pos h]
  · intro h
    rw [get_block_row_off, if_neg (by omega)]
    simp [List.getD_eq_getElem?_getD, List.getElem?_eq_getElem h]

/-- C10 witness: a concrete two-entry index answers in range and out of
range. -/
theorem get_block_row_off_in_bounds_witness :
    get_block_row_off { offs := [5, 9] } 7 = -1 ∧
    get_block_row_off { offs := [5, 9] } 1 = 9 := by
  refine ⟨(get_block_row_off_in_bounds { offs := [5, 9] } 7).1 (by decide), ?_⟩
  have h := (get_block_row_off_in_bounds { offs := [5, 9] } 1).2 (by decide)
  simpa using h

/-! ## Page-aligned I/O requests (src/matrix/sparse_matrix.h lines 63-78 and
src/matrix/sparse_matrix.cpp lines 141-144) -/

/-- The SAFS page size. -/
def PAGE_SIZE : Nat := 4096

/-- Modelled from the spec: the ROUND_PAGE macro of the I/O layer rounds an
offset down to a page boundary (spec 4.7: round down start). -/
def ROUND_PAGE (off : Nat) : Nat :=
  off / PAGE_SIZE * PAGE_SIZE

/-- Modelled from the spec: the ROUNDUP_PAGE macro of the I/O layer rounds a
size up to a page multiple (spec 4.7: round up end). -/
def ROUNDUP_PAGE (sz : Nat) : Nat :=
  (sz + PAGE_SIZE - 1) / PAGE_SIZE * PAGE_SIZE

/-- The (offset, size) of the io_request built by fg_row_compute_task and
block_compute_task: off = ROUND_PAGE(orig_off),
buf_size = ROUNDUP_PAGE(orig_off - off + size). -/
def task_request (orig_off sz : Nat) : Nat × Nat :=
  (ROUND_PAGE orig_off, ROUNDUP_PAGE (orig_off - ROUND_PAGE orig_off + sz))

/-- C7: every I/O request issued by a compute task is page-aligned and
page-sized: the offset is the original offset rounded down to a page boundary,
the size is a page multiple, and the requested byte range contains the original
range [orig_off, orig_off + size). -/
theorem task_request_page_aligned (o s : Nat) :
    (task_request o s).1 % PAGE_SIZE = 0 ∧
    (task_request o s).2 % PAGE_SIZE = 0 ∧
    (task_request o s).1 ≤ o ∧
    o + s ≤ (task_request o s).1 + (task_request o s).2 := by
  have hd : o / 4096 * 4096 ≤ o := Nat.div_mul_le_self o 4096
  have h1 := Nat.div_add_mod (o - o / 4096 * 4096 + s + 4095) 4096
  have h2 : (o - o / 4096 * 4096 + s + 4095) % 4096 < 4096 :=
    Nat.mod_lt _ (by omega)
  refine ⟨?_, ?_, ?_, ?_⟩ <;>
    simp only [task_request, ROUND_PAGE, ROUNDUP_PAGE, PAGE_SIZE] <;> omega

/-! ## Multiply-order selection (src/matrix/sparse_matrix.cpp lines 610-626) -/

/-- The two block execution orders of the sparse matrix layer. -/
inductive BlockOrderKind where
  | seq : BlockOrderKind
  | hilbert : Nat → BlockOrderKind
deriving DecidableEq

/-- The dimension check of block_sparse_matrix::get_multiply_order
(sparse_matrix.cpp lines 616-620) computes the double-precision value
log2(num_block_rows) and compares it with its floor. Only part of that
floating-point computation is determined: IEEE-754 and C99 Annex F force
log2(0) = -inf and floor(-inf) = -inf, so dimension 0 passes the equality, and
for a power of two the mathematical result is an exactly representable integer,
so any rounding returns it and the test passes. For every other dimension the
mathematical log2 is irrational and the outcome depends on how the C library
rounds it (a near-power-of-two such as 2^49 + 1 also passes under correctly
rounded log2). The test is therefore embedded as an abstract predicate
constrained exactly at its forced points. -/
structure Log2FloorTest where
  accepts : Nat → Bool
  accepts_zero : accepts 0 = true
  accepts_pow2 : ∀ k : Nat, accepts (2 ^ k) = true

/-- One admissible double-precision integrality test: the one accepting exactly
the forced points (dimension 0 and the powers of two). It is used only at
inputs where every admissible test agrees. -/
def minimalLog2Test : Log2FloorTest where
  accepts := fun n => n == 0 || 2 ^ Nat.log2 n == n
  accepts_zero := rfl
  accepts_pow2 := fun k => by
    have e : Nat.log2 (2 ^ k) = k := Nat.log2_two_pow
    simp [e]

/-- block_sparse_matrix::get_multiply_order (sparse_matrix.cpp lines 610-626):
a non-square block grid is rejected with an empty pointer, then a dimension
failing the double-precision log2/floor integrality test t is rejected with an
empty pointer, and only then is the Hilbert or the sequential order produced
according to use_hilbert_order. -/
def get_multiply_order (t : Nat → Bool) (useHilbert : Bool)
    (num_block_rows num_block_cols : Nat) : Option BlockOrderKind :=
  if num_block_rows ≠ num_block_cols then none
  else if !t num_block_rows then none
  else if useHilbert then some (BlockOrderKind.hilbert num_block_rows)
  else some BlockOrderKind.seq

/-- Modelled from the spec: the engine refuses to start when get_multiply_order
returns an empty pointer (spec section 7, programmer error: logged and the
engine refuses to start). -/
def engine_starts (o : Option BlockOrderKind) : Bool :=
  o.isSome

/-- C5 counterexample: the 0 by 0 block grid is square and its dimension 0 is
not a power of two, yet the code accepts it: log2(0) = -inf and
floor(-inf) = -inf are forced, the inequality test fails, and
get_multiply_order returns a Hilbert order instead of the empty pointer, so the
engine starts. -/
theorem hilbert_accepts_zero_dimension :
    get_multiply_order minimalLog2Test.accepts true 0 0
      = some (BlockOrderKind.hilbert 0) ∧
    engine_starts (get_multiply_order minimalLog2Test.accepts true 0 0) = true ∧
    ¬ ∃ k : Nat, (0 : Nat) = 2 ^ k := by
  refine ⟨rfl, rfl, ?_⟩
  rintro ⟨k, hk⟩
  have hpow : 0 < 2 ^ k := Nat.pow_pos (by decide)
  omega

/-- C5 amended: a non-square block grid is always rejected before any block is
dispatched, with the empty pointer, and the engine refuses to start; for a
square grid the empty pointer is returned exactly when the double-precision
log2/floor integrality test fails on the dimension; that test passes on every
power of two (and, per the counterexample, on dimension 0), its outcome on the
remaining dimensions being the library's floating-point rounding. This holds
for every admissible test. -/
theorem multiply_order_square_validation (t : Log2FloorTest) (useHilbert : Bool)
    (h w : Nat) :
    (h ≠ w → get_multiply_order t.accepts useHilbert h w = none ∧
      engine_starts (get_multiply_order t.accepts useHilbert h w) = false) ∧
    (get_multiply_order t.accepts useHilbert h h = none ↔
      t.accepts h = false) ∧
    (∀ k : Nat, get_multiply_order t.accepts useHilbert (2 ^ k) (2 ^ k)
      = some (if useHilbert then BlockOrderKind.hilbert (2 ^ k)
          else BlockOrderKind.seq)) := by
  refine ⟨?_, ?_, ?_⟩
  · intro hne
    have hmain : get_multiply_order t.accepts useHilbert h w = none := by
      rw [get_multiply_order, if_pos hne]
    exact ⟨hmain, by rw [hmain]; rfl⟩
  · rw [get_multiply_order, if_neg (by simp)]
    by_cases ht : t.accepts h
    · rw [if_neg (by simp [ht])]
      by_cases uh : useHilbert <;> simp [uh, ht]
    · simp only [Bool.not_eq_true] at ht
      rw [if_pos (by simp [ht])]
      simp [ht]
  · intro k
    rw [get_multiply_order, if_neg (by simp),
      if_neg (by simp [t.accepts_pow2 k])]
    by_cases uh : useHilbert <;> simp [uh]

/-- C5 amended witness: a concrete non-square 3 by 5 grid is refused, and a
concrete square power-of-two grid receives the Hilbert order. -/
theorem multiply_order_square_validation_witness :
    get_multiply_order minimalLog2Test.accepts true 3 5 = none ∧
    get_multiply_order minimalLog2Test.accepts true (2 ^ 2) (2 ^ 2)
      = some (if true then BlockOrderKind.hilbert (2 ^ 2)
          else BlockOrderKind.seq) := by
  refine ⟨?_, ?_⟩
  · exact ((multiply_order_square_validation minimalLog2Test true 3 5).1
      (by decide)).1
  · exact (multiply_order_square_validation minimalLog2Test true 0 0).2.2 2

/-! ## max_degree_query and kmax selection (k_core.cpp lines 171-199, 259-269;
graph_engine.h lines 403-406) -/

/-- The vertex-index entry of one directed vertex: its in-edge and out-edge
counts (spec section 2, Graph Index). -/
structure VInfo where
  inEdges : Nat
  outEdges : Nat
deriving DecidableEq

/-- Modelled from the spec: get_ext_mem_size of the vertex index
(vertex_index.h is not among the sources). A directed vertex occupies its
header plus one 4-byte vertex id per in-edge and per out-edge; hdr is the
engine's vertex_header_size. -/
def get_ext_mem_size (hdr : Nat) (v : VInfo) : Nat :=
  hdr + 4 * (v.inEdges + v.outEdges)

/-- graph_engine::get_vertex_edges (graph_engine.h lines 403-406):
(get_ext_mem_size() - vertex_header_size) / sizeof(vertex_id_t). -/
def get_vertex_edges (hdr : Nat) (v : VInfo) : Nat :=
  (get_ext_mem_size hdr v - hdr) / 4

/-- max_degree_query::run (k_core.cpp lines 179-183): keep the larger of the
accumulator and the vertex's edge count. -/
def maxDegreeRun (hdr : Nat) (acc : Nat) (v : VInfo) : Nat :=
  if get_vertex_edges hdr v > acc then get_vertex_edges hdr v else acc

/-- One worker clone of max_degree_query folded over its partition. -/
def maxDegreeFold (hdr : Nat) (vs : List VInfo) : Nat :=
  vs.foldl (maxDegreeRun hdr) 0

/-- Modelled from the spec: query_on_all (spec section 4.6) with
max_degree_query::merge, which keeps the larger of the two counters. -/
def queryOnAllMaxDegree (hdr : Nat) (parts : List (List VInfo)) : Nat :=
  (parts.map (maxDegreeFold hdr)).foldl max 0

/-- kmax selection of k_core.cpp main (lines 259-269): the fifth positional
argument when present, otherwise the result of query_on_all with
max_degree_query. -/
def chooseKmax (kmax_arg : Option Nat) (maxDegreeResult : Nat) : Nat :=
  match kmax_arg with
  | some m => m
  | none => maxDegreeResult

/-- The natural-number maximum of a list, 0 for the empty list. -/
def maxList (l : List Nat) : Nat :=
  l.foldr max 0

theorem foldl_max_eq (a : Nat) (l : List Nat) :
    l.foldl max a = max a (maxList l) := by
  induction l generalizing a with
  | nil => simp [maxList]
  | cons x xs ih =>
    simp only [List.foldl_cons, maxList, List.foldr_cons, ih]
    rw [Nat.max_assoc]

theorem maxList_append (l1 l2 : List Nat) :
    maxList (l1 ++ l2) = max (maxList l1) (maxList l2) := by
  induction l1 with
  | nil => simp [maxList]
  | cons x xs ih =>
    simp only [List.cons_append, maxList, List.foldr_cons] at ih ⊢
    rw [ih, Nat.max_assoc]

theorem maxList_flatten (L : List (List Nat)) :
    maxList L.flatten = maxList (L.map maxList) := by
  induction L with
  | nil => rfl
  | cons l ls ih =>
    simp only [List.flatten_cons, List.map_cons, maxList_append, ih]
    simp [maxList]

theorem le_maxList (l : List Nat) (x : Nat) (hx : x ∈ l) : x ≤ maxList l := by
  induction l with
  | nil => cases hx
  | cons a as ih =>
    rcases List.mem_cons.mp hx with h | h
    · subst h; exact Nat.le_max_left _ _
    · exact Nat.le_trans (ih h) (Nat.le_max_right _ _)

theorem maxList_mem (l : List Nat) (hl : l ≠ []) : maxList l ∈ l := by
  induction l with
  | nil => exact absurd rfl hl
  | cons a as ih =>
    rcases Decidable.em (as = []) with h | h
    · subst h; simp [maxList]
    · rcases Nat.le_total a (maxList as) with hle | hle
      · have : maxList (a :: as) = maxList as := by
          simp only [maxList, List.foldr_cons]
          exact Nat.max_eq_right hle
        rw [this]
        exact List.mem_cons_of_mem _ (ih h)
      · have : maxList (a :: as) = a := by
          simp only [maxList, List.foldr_cons]
          exact Nat.max_eq_left hle
        rw [this]
        exact List.mem_cons_self _ _

theorem get_vertex_edges_eq (hdr : Nat) (v : VInfo) :
    get_vertex_edges hdr v = v.inEdges + v.outEdges := by
  rw [get_vertex_edges, get_ext_mem_size, Nat.add_sub_cancel_left,
    Nat.mul_div_cancel_left _ (by norm_num)]

theorem maxDegreeFold_eq (hdr : Nat) (vs : List VInfo) :
    maxDegreeFold hdr vs = maxList (vs.map (fun v => v.inEdges + v.outEdges)) := by
  have hstep : vs.foldl (maxDegreeRun hdr) 0
      = (vs.map (fun v => v.inEdges + v.outEdges)).foldl max 0 := by
    rw [List.foldl_map]
    congr 1
    funext acc v
    rw [maxDegreeRun, get_vertex_edges_eq]
    rcases Nat.lt_or_ge acc (v.inEdges + v.outEdges) with h | h
    · rw [if_pos h, Nat.max_eq_right (Nat.le_of_lt h)]
    · rw [if_neg (by omega), Nat.max_eq_left h]
  rw [maxDegreeFold, hstep, foldl_max_eq, Nat.max_eq_right (Nat.zero_le _)]

theorem queryOnAllMaxDegree_eq (hdr : Nat) (parts : List (List VInfo)) :
    queryOnAllMaxDegree hdr parts
      = maxList (parts.flatten.map (fun v => v.inEdges + v.outEdges)) := by
  rw [queryOnAllMaxDegree, foldl_max_eq, Nat.max_eq_right (Nat.zero_le _),
    List.map_flatten, maxList_flatten, List.map_map]
  congr 1
  simp only [Function.comp_def]
  exact List.map_congr_left (fun l _ => maxDegreeFold_eq hdr l)

/-- C3: when kmax is omitted it becomes the result of query_on_all with
max_degree_query, and over any worker partition of any directed graph's vertex
index that result is the maximum over all vertices of
in_edges(v) + out_edges(v): it dominates every vertex's degree and, on a
nonempty graph, is attained by some vertex. -/
theorem kmax_is_max_degree (hdr : Nat) (parts : List (List VInfo)) :
    chooseKmax none (queryOnAllMaxDegree hdr parts) = queryOnAllMaxDegree hdr parts ∧
    queryOnAllMaxDegree hdr parts
      = maxList (parts.flatten.map (fun v => v.inEdges + v.outEdges)) ∧
    (∀ v ∈ parts.flatten,
      v.inEdges + v.outEdges ≤ queryOnAllMaxDegree hdr parts) ∧
    (parts.flatten ≠ [] →
      queryOnAllMaxDegree hdr parts
        ∈ parts.flatten.map (fun v => v.inEdges + v.outEdges)) := by
  refine ⟨rfl, queryOnAllMaxDegree_eq hdr parts, ?_, ?_⟩
  · intro v hv
    rw [queryOnAllMaxDegree_eq]
    exact le_maxList _ _ (List.mem_map_of_mem _ hv)
  · intro hne
    rw [queryOnAllMaxDegree_eq]
    exact maxList_mem _ (by simpa using hne)

/-- C3 witness: a concrete two-worker partition of a three-vertex directed
index. -/
theorem kmax_is_max_degree_witness :
    (⟨1, 2⟩ : VInfo) ∈ ([[⟨1, 2⟩], [⟨0, 1⟩]] : List (List VInfo)).flatten ∧
    (1 + 2 : Nat) ≤ queryOnAllMaxDegree 32 [[⟨1, 2⟩], [⟨0, 1⟩]] ∧
    queryOnAllMaxDegree 32 [[⟨1, 2⟩], [⟨0, 1⟩]]
      ∈ ([[⟨1, 2⟩], [⟨0, 1⟩]] : List (List VInfo)).flatten.map
          (fun v => v.inEdges + v.outEdges) := by
  refine ⟨by decide, ?_, ?_⟩
  · exact (kmax_is_max_degree 32 [[⟨1, 2⟩], [⟨0, 1⟩]]).2.2.1 ⟨1, 2⟩ (by decide)
  · exact (kmax_is_max_degree 32 [[⟨1, 2⟩], [⟨0, 1⟩]]).2.2.2 (by decide)

/-! ## Hilbert execution order (src/matrix/sparse_matrix.cpp lines 62-128) -/

/-- Modelled from the spec: the rotation step of the hilbert curve helper
(hilbert_curve.h is not among the sources; spec section 4.7, Hilbert curve of
order n): in the lower half, reflect when rx is set and then swap the
coordinates. -/
def hilbert_rot (s x y : Nat) (rx ry : Bool) : Nat × Nat :=
  if ry = false then
    if rx = true then (s - 1 - y, s - 1 - x)
    else (y, x)
  else (x, y)

/-- Modelled from the spec: the bit-by-bit distance accumulation of
hilbert_xy2d, descending over the bit levels s = n/2, n/4, ..., 1. -/
def xy2dAux (n : Nat) (s x y d : Nat) : Nat :=
  if hs : s = 0 then d
  else
    let rx : Bool := Nat.land x s != 0
    let ry : Bool := Nat.land y s != 0
    let d2 := d + s * s * Nat.xor (3 * cond rx 1 0) (cond ry 1 0)
    let p := hilbert_rot n x y rx ry
    xy2dAux n (s / 2) p.1 p.2 d2
termination_by s
decreasing_by exact Nat.div_lt_self (Nat.pos_of_ne_zero hs) (by decide)

/-- Modelled from the spec: hilbert_xy2d(n, x, y), the hilbert distance of cell
(x, y) on the order-n curve. -/
def hilbert_xy2d (n x y : Nat) : Nat :=
  xy2dAux n (n / 2) x y 0

/-- The nested loop of hilbert_exec_order::hilbert_exec_order (sparse_matrix.cpp
lines 86-101) enumerates every (row, col) coordinate of the n by n grid. -/
def allCoords (n : Nat) : List (Nat × Nat) :=
  (List.range n).flatMap (fun i => (List.range n).map (fun j => (i, j)))

/-- hilbert_exec_order::hilbert_exec_order: the coordinates sorted ascendingly
by their hilbert order. -/
def hilbertOrders (n : Nat) : List (Nat × Nat) :=
  (allCoords n).mergeSort (fun a b => hilbert_xy2d n a.1 a.2 ≤ hilbert_xy2d n b.1 b.2)

/-- hilbert_exec_order::exec (sparse_matrix.cpp lines 109-128), restricted to
the blocks it runs: walking hilbert_orders, each coordinate whose slot
row * n + col holds a non-null block has run_on_block invoked on it. -/
def hilbertExecVisits (n : Nat) (blocks : List (Option Nat)) : List (Nat × Nat) :=
  (hilbertOrders n).filter (fun o => (blocks.getD (o.1 * n + o.2) none).isSome)

/-- hilbert_exec_order::exec including its size guard: a vector whose length is
not n * n is refused (the function logs and returns false). -/
def hilbertExec (n : Nat) (blocks : List (Option Nat)) : Option (List (Nat × Nat)) :=
  if blocks.length ≠ (hilbertOrders n).length then none
  else some (hilbertExecVisits n blocks)

/-- The number of times coordinate c occurs in a list of coordinates. -/
def countOcc (c : Nat × Nat) (l : List (Nat × Nat)) : Nat :=
  l.countP (fun x => decide (x = c))

theorem countOcc_cons (c a : Nat × Nat) (l : List (Nat × Nat)) :
    countOcc c (a :: l) = countOcc c l + if a = c then 1 else 0 := by
  rw [countOcc, List.countP_cons, countOcc]
  congr 1
  by_cases h : a = c <;> simp [h]

theorem countOcc_eq_zero_of_not_mem (c : Nat × Nat) (l : List (Nat × Nat))
    (h : c ∉ l) : countOcc c l = 0 := by
  rw [countOcc]
  refine List.countP_eq_zero.mpr ?_
  intro a ha
  simp only [decide_eq_true_eq]
  intro he
  exact h (he ▸ ha)

theorem countOcc_eq_one_of_nodup_mem (c : Nat × Nat) (l : List (Nat × Nat))
    (hn : l.Nodup) (hm : c ∈ l) : countOcc c l = 1 := by
  induction l with
  | nil => cases hm
  | cons a as ih =>
    rcases List.nodup_cons.mp hn with ⟨hna, hnd⟩
    rcases List.mem_cons.mp hm with rfl | h
    · rw [countOcc_cons, countOcc_eq_zero_of_not_mem _ _ hna, if_pos rfl]
    · have hne : a ≠ c := fun he => hna (he ▸ h)
      rw [countOcc_cons, if_neg hne, ih hnd h]

theorem countOcc_filter (c : Nat × Nat) (p : Nat × Nat → Bool)
    (l : List (Nat × Nat)) (hpc : p c = true) :
    countOcc c (l.filter p) = countOcc c l := by
  induction l with
  | nil => rfl
  | cons a as ih =>
    by_cases hap : p a
    · rw [List.filter_cons_of_pos hap, countOcc_cons, countOcc_cons, ih]
    · rw [List.filter_cons_of_neg hap, countOcc_cons, ih, if_neg, Nat.add_zero]
      intro he
      subst he
      exact hap hpc

theorem allCoords_length (n : Nat) : (allCoords n).length = n * n := by
  simp [allCoords, List.length_flatMap, Function.comp_def, List.map_const',
    List.sum_replicate, smul_eq_mul]

theorem allCoords_mem (n : Nat) (c : Nat × Nat) :
    c ∈ allCoords n ↔ c.1 < n ∧ c.2 < n := by
  simp only [allCoords, List.mem_flatMap, List.mem_map, List.mem_range]
  constructor
  · rintro ⟨i, hi, j, hj, rfl⟩
    exact ⟨hi, hj⟩
  · rintro ⟨h1, h2⟩
    exact ⟨c.1, h1, c.2, h2, rfl⟩

theorem allCoords_nodup (n : Nat) : (allCoords n).Nodup := by
  rw [allCoords, List.nodup_flatMap]
  constructor
  · intro i _
    exact (List.nodup_range n).map (fun a b h => by simpa using h)
  · refine List.Pairwise.imp ?_ (List.pairwise_lt_range n)
    intro a b hab c hc hc2
    simp only [List.mem_map, List.mem_range] at hc hc2
    obtain ⟨j1, _, h1⟩ := hc
    obtain ⟨j2, _, h2⟩ := hc2
    rw [← h1] at h2
    have hba : b = a := ((Prod.mk.injEq _ _ _ _).mp h2).1
    omega

theorem hilbertOrders_perm (n : Nat) : (hilbertOrders n).Perm (allCoords n) :=
  List.mergeSort_perm (allCoords n) _

theorem hilbertOrders_nodup (n : Nat) : (hilbertOrders n).Nodup :=
  ((hilbertOrders_perm n).symm).nodup (allCoords_nodup n)

theorem hilbertOrders_mem (n : Nat) (c : Nat × Nat) :
    c ∈ hilbertOrders n ↔ c.1 < n ∧ c.2 < n := by
  rw [(hilbertOrders_perm n).mem_iff]
  exact allCoords_mem n c

/-- C4: the precomputed hilbert_orders list is a permutation of all n * n
(row, col) coordinates of the grid, without duplicates, sorted ascendingly by
hilbert distance; exec accepts exactly the vectors of n * n blocks, and along
that sequence it invokes run_on_block exactly once on every non-null block and
never on a null block. -/
theorem hilbert_order_visits_once (n : Nat) (blocks : List (Option Nat))
    (hlen : blocks.length = n * n) :
    (hilbertOrders n).Perm (allCoords n) ∧
    (∀ c : Nat × Nat, c ∈ hilbertOrders n ↔ c.1 < n ∧ c.2 < n) ∧
    (hilbertOrders n).Nodup ∧
    (hilbertOrders n).Pairwise
      (fun a b => hilbert_xy2d n a.1 a.2 ≤ hilbert_xy2d n b.1 b.2) ∧
    hilbertExec n blocks = some (hilbertExecVisits n blocks) ∧
    (∀ i j, i < n → j < n →
      countOcc (i, j) (hilbertExecVisits n blocks)
        = if (blocks.getD (i * n + j) none).isSome then 1 else 0) := by
  have horder : (hilbertOrders n).length = n * n :=
    (hilbertOrders_perm n).length_eq.trans (allCoords_length n)
  refine ⟨hilbertOrders_perm n, hilbertOrders_mem n, hilbertOrders_nodup n, ?_, ?_, ?_⟩
  · have hs := @List.sorted_mergeSort (Nat × Nat)
      (fun a b : Nat × Nat =>
        decide (hilbert_xy2d n a.1 a.2 ≤ hilbert_xy2d n b.1 b.2))
      (fun a b c hab hbc => by
        simp only [decide_eq_true_eq] at hab hbc ⊢
        omega)
      (fun a b => by
        simp only [Bool.or_eq_true, decide_eq_true_eq]
        omega)
      (allCoords n)
    exact hs.imp (fun h => of_decide_eq_true h)
  · rw [hilbertExec, if_neg (by rw [hlen, horder]; simp)]
  · intro i j hi hj
    have hmem : (i, j) ∈ hilbertOrders n := (hilbertOrders_mem n (i, j)).mpr ⟨hi, hj⟩
    by_cases hp : (blocks.getD (i * n + j) none).isSome
    · rw [hilbertExecVisits, countOcc_filter _ _ _ (by simpa using hp), if_pos hp]
      exact countOcc_eq_one_of_nodup_mem _ _ (hilbertOrders_nodup n) hmem
    · rw [if_neg hp]
      refine countOcc_eq_zero_of_not_mem _ _ ?_
      intro hmem2
      exact hp (by simpa using List.of_mem_filter hmem2)

/-- C4 witness: a concrete 2 by 2 grid with one null block. -/
theorem hilbert_order_visits_once_witness :
    ([some 0, none, some 1, some 2] : List (Option Nat)).length = 2 * 2 ∧
    hilbertExec 2 [some 0, none, some 1, some 2]
      = some (hilbertExecVisits 2 [some 0, none, some 1, some 2]) ∧
    countOcc (0, 1) (hilbertExecVisits 2 [some 0, none, some 1, some 2])
      = if (([some 0, none, some 1, some 2] : List (Option Nat)).getD
          (0 * 2 + 1) none).isSome then 1 else 0 := by
  refine ⟨by decide, ?_, ?_⟩
  · exact (hilbert_order_visits_once 2 [some 0, none, some 1, some 2]
      (by decide)).2.2.2.2.1
  · exact (hilbert_order_visits_once 2 [some 0, none, some 1, some 2]
      (by decide)).2.2.2.2.2 0 1 (by decide) (by decide)
